import Mathlib

/-!
Verification development for the repository crawling, chunking and
semantic-index subsystem (`backend/puller.py`, `backend/moss_indexer.py`).

Python strings are modelled as `List Char` (ASCII fragment: `str.lower`,
`str.isalnum` are modelled by their ASCII restrictions `Char.toLower`,
`Char.isAlphanum`; every concrete input appearing in the theorems below is
ASCII).  Python functions that raise are modelled with `Option`/`Except`.
-/

/-- Python strings, modelled as lists of characters. -/
abbrev Str := List Char

/-- The ASCII whitespace characters removed by Python's `str.strip()`. -/
def pyWhitespace : List Char := [' ', '\t', '\n', '\r', '\x0b', '\x0c']

/-- Python `s.strip()` (no argument): remove leading and trailing whitespace. -/
def pyStripWs (s : Str) : Str :=
  ((s.dropWhile (fun c => pyWhitespace.contains c)).reverse.dropWhile
    (fun c => pyWhitespace.contains c)).reverse

/-- Python `s.rstrip(cs)`: remove trailing characters drawn from the character
SET `cs` (not the literal suffix `cs`). -/
def pyRstrip (cs : List Char) (s : Str) : Str :=
  (s.reverse.dropWhile (fun c => cs.contains c)).reverse

/-- Python `needle in hay` (substring containment test). -/
def containsSub (needle : Str) : Str → Bool
  | [] => needle.isEmpty
  | c :: rest => needle.isPrefixOf (c :: rest) || containsSub needle rest

/-- Python `s.split(sep)` for a one-character separator `sep`. -/
def pySplitChar (sep : Char) : Str → List Str
  | [] => [[]]
  | c :: rest =>
    if c = sep then [] :: pySplitChar sep rest
    else
      match pySplitChar sep rest with
      | s :: ss => (c :: s) :: ss
      | [] => [[c]]

/-- The character set Python's `.rstrip('.git')` strips from the end of the
URL in `parse_github_url` (`puller.py` line 60): the SET `{'.','g','i','t'}`,
not the four-character suffix. -/
def gitChars : List Char := ['.', 'g', 'i', 't']

/-- The literal part `github.com/` of the first regex pattern
`github\.com/([^/]+)/([^/]+)` of `parse_github_url`. -/
def ghMarker : Str := ("github.com/").data

/-- Attempt to match the regex `github\.com/([^/]+)/([^/]+)` at the start of
`s`: the literal marker followed by two nonempty slash-free segments (the
greedy groups are the maximal slash-free runs; backtracking cannot produce any
other split because `[^/]+` can never contain `/`). -/
def matchGhAt (s : Str) : Option (Str × Str) :=
  if ghMarker.isPrefixOf s then
    let t := s.drop ghMarker.length
    let seg1 := t.takeWhile (fun c => c ≠ '/')
    match seg1, t.dropWhile (fun c => c ≠ '/') with
    | [], _ => none
    | _, '/' :: t3 =>
      let seg2 := t3.takeWhile (fun c => c ≠ '/')
      if seg2 ≠ [] then some (seg1, seg2) else none
    | _, _ => none
  else none

/-- Python `re.search` of `github\.com/([^/]+)/([^/]+)`: try every start
position left to right, first success wins. -/
def searchGh : Str → Option (Str × Str)
  | [] => none
  | c :: rest =>
    match matchGhAt (c :: rest) with
    | some r => some r
    | none => searchGh rest

/-- Match the anchored regex `^([^/]+)/([^/]+)$`: the whole string is two
nonempty slash-free segments joined by one `/`. -/
def matchBare (s : Str) : Option (Str × Str) :=
  let seg1 := s.takeWhile (fun c => c ≠ '/')
  match seg1, s.dropWhile (fun c => c ≠ '/') with
  | [], _ => none
  | _, '/' :: seg2 =>
    if seg2 ≠ [] ∧ seg2.all (fun c => c ≠ '/') then some (seg1, seg2) else none
  | _, _ => none

/-- `parse_github_url` (`puller.py` lines 40-74): strip whitespace, strip
trailing slashes, strip trailing characters from the set `{'.','g','i','t'}`
(Python `rstrip('.git')`), then try the host-qualified pattern and the bare
two-segment pattern in order.  `none` models the `ValueError` raised when no
pattern matches. -/
def parse_github_url (url : Str) : Option (Str × Str) :=
  let u := pyRstrip gitChars (pyRstrip ['/'] (pyStripWs url))
  match searchGh u with
  | some r => some r
  | none => matchBare u

/-- ASCII model of Python `str.isalnum` on one character. -/
def pyIsAlnum (c : Char) : Bool := c.isAlphanum

/-- The per-character cleanup of `_generate_index_name` (`moss_indexer.py`
line 88): keep alphanumerics and `-`, map everything else to `-`. -/
def cleanChar (c : Char) : Char := if pyIsAlnum c || c = '-' then c else '-'

/-- `_generate_index_name` (`moss_indexer.py` lines 84-89): parse the URL,
join owner and repo with `-`, lowercase (ASCII model of `str.lower`), and
clean each character.  `none` models the propagated `ValueError` of
`parse_github_url`. -/
def _generate_index_name (github_url : Str) : Option Str :=
  match parse_github_url github_url with
  | some (owner, repo) =>
    some (((owner ++ '-' :: repo).map Char.toLower).map cleanChar)
  | none => none

/-- `_normalize_index_identifier` (`moss_indexer.py` lines 92-111): if the
identifier contains `github.com` or `/`, try to regenerate the index name,
falling back to the identifier itself when parsing fails; otherwise the
identifier is returned literally. -/
def _normalize_index_identifier (identifier : Str) : Str :=
  if containsSub (("github.com").data) identifier
      || identifier.any (fun c => c = '/') then
    match _generate_index_name identifier with
    | some name => name
    | none => identifier
  else identifier

/-! ### Tree Walker (`fetch_python_files`, `_should_skip_path`) -/

/-- `EXCLUDED_DIRS` (`puller.py` lines 28-34). -/
def EXCLUDED_DIRS : List Str :=
  [("venv").data, (".venv").data, ("env").data, (".env").data,
   ("__pycache__").data, (".git").data, (".github").data,
   ("node_modules").data, ("dist").data, ("build").data,
   (".pytest_cache").data, (".tox").data, ("htmlcov").data,
   ("site-packages").data]

/-- `EXCLUDED_EXTENSIONS` (`puller.py` line 37). -/
def EXCLUDED_EXTENSIONS : List Str := [(".pyc").data, (".pyo").data, (".pyd").data]

/-- `Path(p).parts` for the relative slash-separated paths returned by the
GitHub contents API: split on `/`, dropping empty segments. -/
def pathParts (s : Str) : List Str :=
  (pySplitChar '/' s).filter (fun seg => seg ≠ [])

/-- `Path(p).name`: the final nonempty path component. -/
def lastComponent (s : Str) : Str := ((pathParts s).getLast?).getD []

/-- `Path.suffix` of a file name (CPython: `i = name.rfind('.')`; the suffix
is `name[i:]` when `0 < i < len(name) - 1`, else empty). -/
def pySuffix (name : Str) : Str :=
  let pre := name.reverse.takeWhile (fun c => c ≠ '.')
  if pre.length + 1 < name.length ∧ 0 < pre.length then '.' :: pre.reverse else []

/-- `_should_skip_path` (`puller.py` lines 77-102): skip when some path part
is an excluded directory, when the extension is an excluded compiled-python
extension, or when the extension is not `.py`. -/
def _should_skip_path (file_path : Str) : Bool :=
  (pathParts file_path).any (fun part => decide (part ∈ EXCLUDED_DIRS))
  || decide (pySuffix (lastComponent file_path) ∈ EXCLUDED_EXTENSIONS)
  || decide (pySuffix (lastComponent file_path) ≠ (".py").data)

/-- `path.split('/')[0]`: the first slash-separated segment, used by the
walk's directory-exclusion test (`puller.py` line 138). -/
def firstSeg (s : Str) : Str := s.takeWhile (fun c => c ≠ '/')

/-- One entry of the GitHub contents listing (`repository.get_contents`),
together with the outcome of the external call the walk makes for it: a
file carries the outcome of decoding its bytes (`none` models
`decoded_content.decode('utf-8')` raising, absorbed at `puller.py` lines
155-156), a directory carries whether listing it succeeds (`false` models
`repository.get_contents(path)` raising a `GithubException`, absorbed at
`puller.py` lines 141-142) plus the entries that exist under it in the
repository (never seen by the walk when the listing fails). -/
inductive Entry : Type where
  | file : Str → Option Str → Entry
  | dir : Str → Bool → List Entry → Entry

/-- The `path` attribute of a contents entry. -/
def entryPath : Entry → Str
  | .file p _ => p
  | .dir p _ _ => p

mutual
/-- Number of entries in a subtree (termination measure for the walk). -/
def esize : Entry → Nat
  | .file _ _ => 1
  | .dir _ _ cs => 1 + esizeL cs
/-- Total number of entries in a forest. -/
def esizeL : List Entry → Nat
  | [] => 0
  | e :: es => esize e + esizeL es
end

mutual
/-- Well-formedness of a contents entry: every child path of a directory
extends the directory's path by `/` plus a suffix.  This is guaranteed by the
GitHub contents API that the walk consumes. -/
def wfEntry : Entry → Bool
  | .file _ _ => true
  | .dir p _ cs => wfChildren p cs
/-- Well-formedness of the children of a directory with path `p`. -/
def wfChildren (p : Str) : List Entry → Bool
  | [] => true
  | e :: es => (p ++ ['/']).isPrefixOf (entryPath e) && wfEntry e && wfChildren p es
end

/-- Well-formedness of a whole contents forest. -/
def wfForest (repo : List Entry) : Bool := repo.all wfEntry

mutual
/-- Number of files of a subtree accepted by the walk's file filter
(`.py` suffix, no excluded path segment): the eligible files, counted
whether or not their decode or their parent's listing would succeed. -/
def countEligible : Entry → Nat
  | .file p _ => if _should_skip_path p then 0 else 1
  | .dir _ _ cs => countEligibleL cs
/-- Total number of eligible files of a forest. -/
def countEligibleL : List Entry → Nat
  | [] => 0
  | e :: es => countEligible e + countEligibleL es
end

mutual
/-- A failure-free run: every file in the subtree decodes and every
directory listing succeeds. -/
def noFailures : Entry → Bool
  | .file _ d => d.isSome
  | .dir _ ok cs => ok && noFailuresL cs
/-- A failure-free run over a forest. -/
def noFailuresL : List Entry → Bool
  | [] => true
  | e :: es => noFailures e && noFailuresL es
end

/-- The worklist loop of `fetch_python_files` (`puller.py` lines 128-158):
pop the queue head; push a directory's children at the end of the queue
unless its first path segment is excluded — a failing listing is absorbed
and the subtree skipped (lines 141-142); append a file to the result unless
the file filter skips it — a failing decode is absorbed and the file skipped
(lines 155-156); stop as soon as `max_files` results have been collected. -/
def fetchGo (max_files : Nat) (contents : List Entry) (acc : List (Str × Str)) :
    List (Str × Str) :=
  match contents with
  | [] => acc
  | e :: rest =>
    if acc.length < max_files then
      match e with
      | .file p dc =>
        if _should_skip_path p then fetchGo max_files rest acc
        else
          match dc with
          | some c => fetchGo max_files rest (acc ++ [(p, c)])
          | none => fetchGo max_files rest acc
      | .dir p ok cs =>
        if firstSeg p ∈ EXCLUDED_DIRS then fetchGo max_files rest acc
        else if ok then fetchGo max_files (rest ++ cs) acc
        else fetchGo max_files rest acc
    else acc
termination_by esizeL contents
decreasing_by
  all_goals
    have happ : ∀ l₁ l₂ : List Entry, esizeL (l₁ ++ l₂) = esizeL l₁ + esizeL l₂ := by
      intro l₁ l₂
      induction l₁ with
      | nil => simp [esizeL]
      | cons a l ih => simp [esizeL, ih, Nat.add_assoc]
  all_goals simp only [happ, esizeL, esize]
  all_goals omega

/-- The outcome of the GitHub repository access wrapped by the outer
`try` of `fetch_python_files`: either the root listing
(`repository.get_contents("")`), or a `GithubException` carrying its HTTP
status. -/
inductive RepoAccess : Type where
  | ok : List Entry → RepoAccess
  | githubError : Nat → RepoAccess

/-- `fetch_python_files` (`puller.py` lines 105-167).  The GitHub API is
modelled by `access`: on a `GithubException`, status 404 is re-raised as the
repository-not-found `ValueError`, 403 as the rate-limit `RuntimeError`, and
anything else as a generic `RuntimeError` (lines 161-167; the exception text
interpolated into the last message is elided). -/
def fetch_python_files (owner repo : Str) (access : RepoAccess) (max_files : Nat) :
    Except Str (List (Str × Str)) :=
  match access with
  | .ok contents => Except.ok (fetchGo max_files contents [])
  | .githubError status =>
    if status = 404 then
      Except.error ((("Repository not found: ").data) ++ owner ++ '/' :: repo)
    else if status = 403 then
      Except.error (("GitHub API rate limit exceeded. Please try again later.").data)
    else
      Except.error (("GitHub API error").data)

/-- Concrete contents forest with exactly five eligible files (two at the
root, three under `src/`), one excluded directory and one non-Python file;
every decode and every listing succeeds. -/
def repoEx : List Entry :=
  [Entry.file (("a.py").data) (some (("x = 1").data)),
   Entry.file (("b.py").data) (some (("y = 2").data)),
   Entry.dir (("src").data) true
     [Entry.file (("src/c.py").data) (some (("z = 3").data)),
      Entry.file (("src/d.py").data) (some (("w = 4").data)),
      Entry.file (("src/e.py").data) (some (("v = 5").data))],
   Entry.dir (("venv").data) true
     [Entry.file (("venv/f.py").data) (some (("q = 6").data))],
   Entry.file (("README.md").data) (some (("hi").data))]

/-! ### Chunk Extractor (`parse_python_file`) -/

/-- A Moss-ready chunk (`{"id": ..., "text": ...}`). -/
structure Chunk where
  id : Str
  text : Str
deriving DecidableEq

/-- Model of the CPython AST nodes visited by `ast.walk`: function
definitions, class definitions, and every other kind of node.  The list
argument is the output of `ast.iter_child_nodes` in order; the `Option Nat`
models the optional `end_lineno` attribute. -/
inductive PyNode : Type where
  | funcDef : Str → Nat → Option Nat → List PyNode → PyNode
  | classDef : Str → Nat → Option Nat → List PyNode → PyNode
  | other : List PyNode → PyNode

/-- `ast.iter_child_nodes`. -/
def pyChildren : PyNode → List PyNode
  | .funcDef _ _ _ cs => cs
  | .classDef _ _ _ cs => cs
  | .other cs => cs

mutual
/-- Number of nodes of a syntax subtree (termination measure for the walk). -/
def psize : PyNode → Nat
  | .funcDef _ _ _ cs => 1 + psizeL cs
  | .classDef _ _ _ cs => 1 + psizeL cs
  | .other cs => 1 + psizeL cs
/-- Total number of nodes of a list of subtrees. -/
def psizeL : List PyNode → Nat
  | [] => 0
  | n :: ns => psize n + psizeL ns
end

/-- `ast.walk` (CPython): breadth-first traversal with a FIFO queue — pop
the head, push its children at the END of the queue, yield the popped
node. -/
def walkBFS (q : List PyNode) : List PyNode :=
  match q with
  | [] => []
  | n :: rest => n :: walkBFS (rest ++ pyChildren n)
termination_by psizeL q
decreasing_by
  have happ : ∀ l₁ l₂ : List PyNode, psizeL (l₁ ++ l₂) = psizeL l₁ + psizeL l₂ := by
    intro l₁ l₂
    induction l₁ with
    | nil => simp [psizeL]
    | cons a l ih => simp [psizeL, ih, Nat.add_assoc]
  cases n <;> simp [happ, psizeL, psize, pyChildren] <;> omega

/-- Depth-annotated variant of the same queue traversal: each queued node
carries its depth, children enter the queue one level deeper. -/
def walkBFSD (q : List (PyNode × Nat)) : List (PyNode × Nat) :=
  match q with
  | [] => []
  | (n, d) :: rest =>
    (n, d) :: walkBFSD (rest ++ (pyChildren n).map (fun c => (c, d + 1)))
termination_by psizeL (q.map Prod.fst)
decreasing_by
  have happ : ∀ l₁ l₂ : List PyNode, psizeL (l₁ ++ l₂) = psizeL l₁ + psizeL l₂ := by
    intro l₁ l₂
    induction l₁ with
    | nil => simp [psizeL]
    | cons a l ih => simp [psizeL, ih, Nat.add_assoc]
  have hid : ∀ (l : List PyNode) (k : Nat),
      List.map (Prod.fst ∘ fun c => (c, k)) l = l := by
    intro l k
    induction l with
    | nil => rfl
    | cons a t ih => simp [ih, Function.comp]
  cases n <;>
    simp [happ, psizeL, psize, pyChildren, List.map_append, List.map_map, hid] <;>
    omega

/-- `content.split('\n')` (`puller.py` line 191). -/
def splitLines (content : Str) : List Str := pySplitChar '\n' content

/-- Python `x if x else d` on the optional `end_lineno` attribute (both
`None` and `0` are falsy). -/
def pyOrNat : Option Nat → Nat → Nat
  | some n, d => if n = 0 then d else n
  | none, d => d

/-- `start_line = node.lineno - 1` (`puller.py` lines 202, 213; the CPython
parser guarantees `lineno ≥ 1`, so natural subtraction is exact). -/
def sliceStart (lineno : Nat) : Nat := lineno - 1

/-- `end_line = node.end_lineno if node.end_lineno else start_line + 1`
(`puller.py` lines 203, 214). -/
def sliceEnd (lineno : Nat) (endLineno : Option Nat) : Nat :=
  pyOrNat endLineno (sliceStart lineno + 1)

/-- `'\n'.join(strs)`. -/
def joinNL : List Str → Str
  | [] => []
  | [s] => s
  | s :: rest => s ++ '\n' :: joinNL rest

/-- Python `str.capitalize`: first character uppercased, the rest
lowercased (ASCII model). -/
def pyCapitalize : Str → Str
  | [] => []
  | c :: rest => Char.toUpper c :: rest.map Char.toLower

/-- The chunk built from one `FunctionDef`/`ClassDef` node (`puller.py`
lines 198-233): slice the file's lines by `[start_line:end_line]`, join, and
emit the chunk with its header unless the sliced text or the symbol name is
empty (the code's `if chunk_text and chunk_name:` truthiness test; the local
`chunk_text` variable is inlined here). -/
def mkChunk (lines : List Str) (file_path repo_id chunk_type chunk_name : Str)
    (lineno : Nat) (endLineno : Option Nat) : Option Chunk :=
  if joinNL ((lines.drop (sliceStart lineno)).take
        (sliceEnd lineno endLineno - sliceStart lineno)) ≠ []
      ∧ chunk_name ≠ [] then
    some { id := repo_id ++ ':' :: file_path ++ ':' :: chunk_name,
           text := ("# File: ").data ++ file_path
             ++ '\n' :: ('#' :: ' ' :: pyCapitalize chunk_type)
             ++ (": ").data ++ chunk_name
             ++ '\n' :: '\n' ::
               joinNL ((lines.drop (sliceStart lineno)).take
                 (sliceEnd lineno endLineno - sliceStart lineno)) }
  else none

/-- Chunk extraction for one visited node: only function and class
definition nodes produce a chunk (`puller.py` lines 198-219). -/
def nodeChunk (lines : List Str) (file_path repo_id : Str) : PyNode → Option Chunk
  | .funcDef name lineno endLineno _ =>
    mkChunk lines file_path repo_id (("function").data) name lineno endLineno
  | .classDef name lineno endLineno _ =>
    mkChunk lines file_path repo_id (("class").data) name lineno endLineno
  | .other _ => none

/-- `parse_python_file` (`puller.py` lines 170-235).  `ast.parse` is
external (CPython's parser), so its outcome is an input: `.error` models a
raised `SyntaxError`, which the function catches, returning `[]`; `.ok tree`
carries the top-level statements of the parsed `Module`.  (`ast.walk` starts
at the `Module` node itself, which is neither a function nor a class
definition and contributes no chunk, so walking the top-level list yields
exactly the same chunk sequence.) -/
def parse_python_file (parsed : Except Str (List PyNode)) (content : Str)
    (file_path repo_id : Str) : List Chunk :=
  match parsed with
  | .error _ => []
  | .ok tree =>
    (walkBFS tree).filterMap (nodeChunk (splitLines content) file_path repo_id)

mutual
/-- A subtree containing no function and no class definition. -/
def defFree : PyNode → Bool
  | .funcDef _ _ _ _ => false
  | .classDef _ _ _ _ => false
  | .other cs => defFreeL cs
/-- A forest containing no function and no class definition. -/
def defFreeL : List PyNode → Bool
  | [] => true
  | n :: ns => defFree n && defFreeL ns
end

/-- Syntax tree of the order counterexample: two top-level functions `a` and
`b`, with `g` nested inside `a` (the `other` children model the argument
nodes and `pass` statements also yielded by `ast.iter_child_nodes`). -/
def cexTree : List PyNode :=
  [PyNode.funcDef (("a").data) 1 (some 3)
     [PyNode.other [], PyNode.funcDef (("g").data) 2 (some 3) [PyNode.other []]],
   PyNode.funcDef (("b").data) 4 (some 5) [PyNode.other []]]

/-- Source text of the order counterexample. -/
def cexContent : Str :=
  ("def a():\n    def g():\n        pass\ndef b():\n    pass").data

/-! ### Index Lifecycle Manager and Search Accessor (`moss_indexer.py`) -/

/-- One externally observable Moss-service interaction: constructing the
client, querying the index listing, or submitting a creation call (with
index name and model id). -/
inductive MossCall : Type where
  | clientInit : MossCall
  | listIndexes : MossCall
  | createIndex : Str → Str → MossCall
deriving DecidableEq

/-- The external outcomes `create_moss_index` can encounter: whether the
Moss credentials are configured, what `client.list_indexes()` returns
(`none` models a raised exception, which the code swallows), and whether
`client.create_index` succeeds. -/
structure MossEnv : Type where
  credsPresent : Bool
  listResult : Option (List Str)
  createSucceeds : Bool

/-- The creation step of `create_moss_index` (`moss_indexer.py` lines
139-152): one `create_index` call; its failure is wrapped and re-raised as a
`RuntimeError` (modelled `.error`). -/
def mossCreateStep (env : MossEnv) (index_name embedding_model : Str)
    (trace : List MossCall) : Except Str Str × List MossCall :=
  if env.createSucceeds then
    (Except.ok index_name,
     trace ++ [MossCall.createIndex index_name embedding_model])
  else
    (Except.error (("Moss index creation failed").data),
     trace ++ [MossCall.createIndex index_name embedding_model])

/-- `create_moss_index` (`moss_indexer.py` lines 114-152), paired with its
trace of external interactions: an empty chunk list fails before the client
is constructed; missing credentials fail inside `_get_moss_client`; with
`skip_if_exists` the listing is queried first (a listing failure is
swallowed and treated as not-found) and an already-listed index name
short-circuits creation. -/
def create_moss_index (env : MossEnv) (chunks : List Chunk)
    (index_name embedding_model : Str) (skip_if_exists : Bool) :
    Except Str Str × List MossCall :=
  if chunks.isEmpty then
    (Except.error (("Cannot create index from empty chunks list").data), [])
  else if env.credsPresent = false then
    (Except.error (("Moss credentials not found").data), [])
  else if skip_if_exists then
    match env.listResult with
    | some existing =>
      if index_name ∈ existing then
        (Except.ok index_name, [MossCall.clientInit, MossCall.listIndexes])
      else
        mossCreateStep env index_name embedding_model
          [MossCall.clientInit, MossCall.listIndexes]
    | none =>
      mossCreateStep env index_name embedding_model
        [MossCall.clientInit, MossCall.listIndexes]
  else mossCreateStep env index_name embedding_model [MossCall.clientInit]

/-- One document of the index service's query response; every field may be
absent (probed with `getattr` fallbacks in the code).  Scores are opaque
relevance numbers that are only copied, modelled as rationals with `0`
standing for the float `0.0`. -/
structure RawDoc : Type where
  id : Option Str
  text : Option Str
  score : Option Rat
deriving DecidableEq

/-- One formatted search result (`{'id', 'text', 'score'}`). -/
structure SearchResult : Type where
  id : Str
  text : Str
  score : Rat
deriving DecidableEq

/-- The per-document formatting of `search_code` (`moss_indexer.py` lines
218-223): `getattr(doc, 'id', 'unknown')`, `getattr(doc, 'text', '')`,
`getattr(doc, 'score', 0.0)`. -/
def formatDoc (d : RawDoc) : SearchResult :=
  { id := d.id.getD (("unknown").data),
    text := d.text.getD [],
    score := d.score.getD 0 }

/-- The response handling of `search_code` (`moss_indexer.py` lines
196-226): the identifier is normalized, the external load and query calls
are issued (external: `resp` is the response's `docs` list when the response
has a `docs` attribute, `none` otherwise), then the result list is built
from `results.docs[:top_k]` with missing fields filled. -/
def search_code (index_identifier : Str) (resp : Option (List RawDoc))
    (top_k : Nat) : List SearchResult :=
  let _index_name := _normalize_index_identifier index_identifier
  match resp with
  | none => []
  | some docs => (docs.take top_k).map formatDoc

/-! Helper lemmas about the string model. -/

theorem isPrefixOf_exists : ∀ (l s : Str), l.isPrefixOf s = true → ∃ t, s = l ++ t
  | [], s, _ => ⟨s, rfl⟩
  | _ :: _, [], h => by simp [List.isPrefixOf] at h
  | a :: l, b :: s, h => by
    simp only [List.isPrefixOf, Bool.and_eq_true, beq_iff_eq] at h
    obtain ⟨h1, h2⟩ := h
    obtain ⟨t, ht⟩ := isPrefixOf_exists l s h2
    exact ⟨t, by simp [h1, ht]⟩

theorem containsSub_split (needle : Str) :
    ∀ (hay : Str), containsSub needle hay = true →
      ∃ pre post, hay = pre ++ needle ++ post
  | [], h => by
    simp only [containsSub, List.isEmpty_iff] at h
    exact ⟨[], [], by simp [h]⟩
  | c :: rest, h => by
    simp only [containsSub, Bool.or_eq_true] at h
    rcases h with h | h
    · obtain ⟨t, ht⟩ := isPrefixOf_exists needle (c :: rest) h
      exact ⟨[], t, by simp [ht]⟩
    · obtain ⟨pre, post, hsplit⟩ := containsSub_split needle rest h
      exact ⟨c :: pre, post, by simp [hsplit]⟩

/-- The character cleanup of `_generate_index_name` only produces
alphanumerics or dashes. -/
theorem cleanChar_spec (a : Char) : pyIsAlnum (cleanChar a) = true ∨ cleanChar a = '-' := by
  unfold cleanChar
  split
  · next h =>
    rcases Bool.or_eq_true_iff.mp h with h' | h'
    · exact Or.inl h'
    · exact Or.inr (of_decide_eq_true h')
  · exact Or.inr rfl

/-- Every character of a successfully generated index name is (ASCII)
alphanumeric or a dash: `_generate_index_name` maps every other character
to `-`. -/
theorem generate_index_name_chars (x y : Str) (h : _generate_index_name x = some y) :
    ∀ c ∈ y, pyIsAlnum c = true ∨ c = '-' := by
  unfold _generate_index_name at h
  rcases hp : parse_github_url x with _ | ⟨o, r⟩ <;> rw [hp] at h
  · exact absurd h (by simp)
  · simp only [Option.some.injEq] at h
    subst h
    intro c hc
    simp only [List.mem_map] at hc
    obtain ⟨a, _, ha⟩ := hc
    rw [← ha]
    exact cleanChar_spec a

/-- A string of alphanumeric-or-dash characters is a fixed point of
`_normalize_index_identifier`: it contains neither `github.com` nor `/`,
so the second branch returns it literally. -/
theorem normalize_fixed_of_clean (y : Str)
    (h : ∀ c ∈ y, pyIsAlnum c = true ∨ c = '-') :
    _normalize_index_identifier y = y := by
  have hslash : y.any (fun c => c = '/') = false := by
    rw [Bool.eq_false_iff]
    intro hcontra
    obtain ⟨c, hc, hceq⟩ := List.any_eq_true.mp hcontra
    have hcs : c = '/' := of_decide_eq_true hceq
    subst hcs
    rcases h _ hc with h' | h'
    · exact absurd h' (by decide)
    · exact absurd h' (by decide)
  have hgh : containsSub (("github.com").data) y = false := by
    rw [Bool.eq_false_iff]
    intro hcontra
    obtain ⟨pre, post, hsplit⟩ := containsSub_split _ _ hcontra
    have hdot : '.' ∈ y := by
      rw [hsplit]
      exact List.mem_append_left post (List.mem_append_right pre (by decide))
    rcases h _ hdot with h' | h'
    · exact absurd h' (by decide)
    · exact absurd h' (by decide)
  simp [_normalize_index_identifier, hslash, hgh]

/-- Claim C10 counterexample: the claim's justification is false — when the
fallback branch of `_normalize_index_identifier` fires (parsing fails), the
returned identifier is the input itself and can contain `/`. -/
theorem normalize_index_identifier_slash_output :
    _normalize_index_identifier (("a/b/c").data) = ("a/b/c").data
    ∧ (("a/b/c").data).any (fun c => c = '/') = true := by decide

/-- Claim C10 (amended): `_normalize_index_identifier` is idempotent.  When
normalization succeeds the output consists only of alphanumerics and dashes
(hence contains neither `/` nor `github.com`) and is taken literally on a
second pass; when parsing fails the input is returned unchanged, so a second
pass returns the same string again. -/
theorem normalize_index_identifier_idempotent (x : Str) :
    _normalize_index_identifier (_normalize_index_identifier x)
      = _normalize_index_identifier x := by
  by_cases hc : (containsSub (("github.com").data) x
      || x.any (fun c => c = '/')) = true
  · rcases hg : _generate_index_name x with _ | y
    · have hx : _normalize_index_identifier x = x := by
        simp [_normalize_index_identifier, hc, hg]
      rw [hx]
      exact hx
    · have hx : _normalize_index_identifier x = y := by
        simp [_normalize_index_identifier, hc, hg]
      rw [hx]
      exact normalize_fixed_of_clean y (generate_index_name_chars x y hg)
  · have hx : _normalize_index_identifier x = x := by
      simp only [Bool.not_eq_true] at hc
      simp [_normalize_index_identifier, hc]
    rw [hx]
    exact hx

/-- Claim C1 (code-bug evidence): for the repository `(a, big)` every one of
the four reference forms yields the identifier `a-b`, not the claimed
`lowercase(owner-name) = a-big`: Python's `rstrip('.git')` strips the
trailing characters `g`,`i` of the repository NAME because it removes a
character set, not the `.git` suffix, contradicting the function's own
docstring ("Remove trailing slashes and .git extension"). -/
theorem generate_index_name_four_forms_a_big :
    _generate_index_name (("a/big").data) = some (("a-b").data)
    ∧ _generate_index_name (("https://github.com/a/big").data) = some (("a-b").data)
    ∧ _generate_index_name (("https://github.com/a/big.git").data) = some (("a-b").data)
    ∧ _generate_index_name (("https://github.com/a/big/").data) = some (("a-b").data)
    ∧ ("a-b").data ≠ ("a-big").data := by decide

/-- Claim C2 counterexample: the host pattern of `parse_github_url` is
case-sensitive, so the mixed-case reference of the spec scenario matches
neither pattern and the code raises `ValueError` (modelled `none`) instead of
returning `("Foo","Bar")`. -/
theorem parse_github_url_mixed_case_rejected :
    parse_github_url (("HTTPS://GitHub.com/Foo/Bar.git/").data) = none
    ∧ _generate_index_name (("HTTPS://GitHub.com/Foo/Bar.git/").data) = none := by decide

/-- Claim C2 (amended): with a lowercase scheme and host the scenario holds:
`"https://github.com/Foo/Bar.git/"` parses to `("Foo","Bar")` and generates
the identifier `"foo-bar"`. -/
theorem parse_github_url_lower_case_host :
    parse_github_url (("https://github.com/Foo/Bar.git/").data)
      = some (("Foo").data, ("Bar").data)
    ∧ _generate_index_name (("https://github.com/Foo/Bar.git/").data)
      = some (("foo-bar").data) := by decide

/-- Claim C3 (code-bug evidence): the bare two-segment reference
`owner/unit`, whose name does not end in `.git`, is NOT returned unchanged:
`rstrip('.git')` removes the trailing characters `t`,`i` of `unit` (it strips
a character set, not the suffix), so the code returns `("owner","un")`. -/
theorem parse_github_url_bare_name_mangled :
    parse_github_url (("owner/unit").data) = some (("owner").data, ("un").data)
    ∧ ("un").data ≠ ("unit").data := by decide

/-! Lemmas about entry sizes and the walk. -/

theorem esizeL_append (l₁ l₂ : List Entry) :
    esizeL (l₁ ++ l₂) = esizeL l₁ + esizeL l₂ := by
  induction l₁ with
  | nil => simp [esizeL]
  | cons a l ih => simp [esizeL, ih, Nat.add_assoc]

theorem esize_pos : ∀ e : Entry, 0 < esize e
  | .file _ _ => by simp [esize]
  | .dir _ _ _ => by simp [esize]

theorem eq_nil_of_esizeL (q : List Entry) (h : esizeL q = 0) : q = [] := by
  cases q with
  | nil => rfl
  | cons e es =>
    exfalso
    have := esize_pos e
    simp only [esizeL] at h
    omega

theorem esize_mem_le (e : Entry) : ∀ (cs : List Entry), e ∈ cs → esize e ≤ esizeL cs
  | [], h => absurd h (List.not_mem_nil e)
  | c :: cs', h => by
    rcases List.mem_cons.mp h with he | he
    · subst he
      simp only [esizeL]
      omega
    · have := esize_mem_le e cs' he
      simp only [esizeL]
      omega

theorem countEligibleL_append (l₁ l₂ : List Entry) :
    countEligibleL (l₁ ++ l₂) = countEligibleL l₁ + countEligibleL l₂ := by
  induction l₁ with
  | nil => simp [countEligibleL]
  | cons a l ih => simp [countEligibleL, ih, Nat.add_assoc]

theorem firstSeg_append (p r : Str) : firstSeg (p ++ '/' :: r) = firstSeg p := by
  induction p with
  | nil => simp [firstSeg, List.takeWhile_cons]
  | cons a p ih =>
    by_cases ha : a = '/'
    · simp [firstSeg, List.takeWhile_cons, ha]
    · simp only [firstSeg, List.cons_append, List.takeWhile_cons, ha] at ih ⊢
      simp only [decide_not, decide_eq_true_eq] at *
      simp [ha, ih]

theorem pySplitChar_head (sep : Char) (s : Str) :
    ∃ ss, pySplitChar sep s = s.takeWhile (fun c => c ≠ sep) :: ss := by
  induction s with
  | nil => exact ⟨[], rfl⟩
  | cons c rest ih =>
    by_cases hc : c = sep
    · refine ⟨pySplitChar sep rest, ?_⟩
      simp [pySplitChar, hc, List.takeWhile_cons]
    · obtain ⟨ss, hss⟩ := ih
      refine ⟨ss, ?_⟩
      simp [pySplitChar, hc, hss, List.takeWhile_cons]

theorem firstSeg_mem_pathParts (s : Str) (h : firstSeg s ≠ []) :
    firstSeg s ∈ pathParts s := by
  obtain ⟨ss, hss⟩ := pySplitChar_head '/' s
  unfold pathParts
  rw [show pySplitChar '/' s = firstSeg s :: ss from hss]
  simp [List.filter_cons, h]

theorem nil_not_excluded : ([] : Str) ∉ EXCLUDED_DIRS := by decide

theorem should_skip_of_firstSeg (s : Str) (h : firstSeg s ∈ EXCLUDED_DIRS) :
    _should_skip_path s = true := by
  have hne : firstSeg s ≠ [] := by
    intro hnil
    rw [hnil] at h
    exact nil_not_excluded h
  have hany : (pathParts s).any (fun part => decide (part ∈ EXCLUDED_DIRS)) = true :=
    List.any_eq_true.mpr ⟨firstSeg s, firstSeg_mem_pathParts s hne, by simp [h]⟩
  unfold _should_skip_path
  simp [hany]

theorem wfChildren_mem (p : Str) :
    ∀ (cs : List Entry), wfChildren p cs = true → ∀ e ∈ cs,
      (∃ r, entryPath e = p ++ '/' :: r) ∧ wfEntry e = true
  | [], _, e, he => absurd he (List.not_mem_nil e)
  | c :: cs', h, e, he => by
    simp only [wfChildren, Bool.and_eq_true] at h
    obtain ⟨⟨hpre, hwf⟩, hrest⟩ := h
    rcases List.mem_cons.mp he with he | he
    · subst he
      refine ⟨?_, hwf⟩
      obtain ⟨t, ht⟩ := isPrefixOf_exists _ _ hpre
      exact ⟨t, by rw [ht]; simp [List.append_assoc]⟩
    · exact wfChildren_mem p cs' hrest e he

theorem countEligibleL_zero (cs : List Entry) (h : ∀ c ∈ cs, countEligible c = 0) :
    countEligibleL cs = 0 := by
  induction cs with
  | nil => rfl
  | cons e es ih =>
    simp only [countEligibleL]
    rw [h e (by simp), ih (fun c hc => h c (by simp [hc]))]

/-- A well-formed entry lying under a directory whose first path segment is
excluded contributes no eligible files: every file below it inherits that
excluded first segment. -/
theorem countEligible_zero_under :
    ∀ (n : Nat) (p : Str) (e : Entry), esize e ≤ n →
      firstSeg p ∈ EXCLUDED_DIRS → wfEntry e = true →
      (∃ r, entryPath e = p ++ '/' :: r) → countEligible e = 0 := by
  intro n
  induction n with
  | zero =>
    intro p e hsz _ _ _
    exact absurd hsz (by have := esize_pos e; omega)
  | succ n ih =>
    intro p e hsz hexc hwf hext
    cases e with
    | file fp c =>
      obtain ⟨r, hr⟩ := hext
      simp only [entryPath] at hr
      have hfp : firstSeg fp ∈ EXCLUDED_DIRS := by
        rw [hr, firstSeg_append]
        exact hexc
      simp [countEligible, should_skip_of_firstSeg fp hfp]
    | dir dp ok cs =>
      obtain ⟨r, hr⟩ := hext
      simp only [entryPath] at hr
      simp only [wfEntry] at hwf
      simp only [countEligible]
      apply countEligibleL_zero
      intro c hc
      obtain ⟨⟨r', hr'⟩, hwfc⟩ := wfChildren_mem dp cs hwf c hc
      refine ih p c ?_ hexc hwfc ?_
      · have h1 := esize_mem_le c cs hc
        simp only [esize] at hsz
        omega
      · refine ⟨r ++ '/' :: r', ?_⟩
        rw [hr', hr]
        simp [List.append_assoc]

/-- Appending failure-free forests stays failure-free. -/
theorem noFailuresL_append (l₁ l₂ : List Entry)
    (h₁ : noFailuresL l₁ = true) (h₂ : noFailuresL l₂ = true) :
    noFailuresL (l₁ ++ l₂) = true := by
  induction l₁ with
  | nil => simpa using h₂
  | cons a l ih =>
    simp only [List.cons_append, noFailuresL, Bool.and_eq_true] at h₁ ⊢
    exact ⟨h₁.1, ih h₁.2⟩

/-- The walk on an empty queue returns the accumulator. -/
theorem fetchGo_nil (N : Nat) (acc : List (Str × Str)) : fetchGo N [] acc = acc := by
  conv_lhs => unfold fetchGo

/-- Master lemma for the walk loop: over a well-formed forest, in a
failure-free run, the number of collected files is exactly
`min max_files (collected-so-far + eligible)`. -/
theorem fetchGo_length (N : Nat) :
    ∀ (n : Nat) (q : List Entry) (acc : List (Str × Str)),
      esizeL q ≤ n → wfForest q = true → noFailuresL q = true → acc.length ≤ N →
      (fetchGo N q acc).length = min N (acc.length + countEligibleL q) := by
  intro n
  induction n with
  | zero =>
    intro q acc hsz _ _ hacc
    have hq : q = [] := eq_nil_of_esizeL q (by omega)
    subst hq
    simp only [fetchGo, countEligibleL]
    omega
  | succ n ih =>
    intro q acc hsz hwf hok hacc
    cases q with
    | nil =>
      simp only [fetchGo, countEligibleL]
      omega
    | cons e rest =>
      simp only [wfForest, List.all_cons, Bool.and_eq_true] at hwf
      obtain ⟨hwe, hwrest⟩ := hwf
      simp only [noFailuresL, Bool.and_eq_true] at hok
      obtain ⟨hoke, hokrest⟩ := hok
      by_cases hlt : acc.length < N
      · cases e with
        | file p dc =>
          simp only [noFailures] at hoke
          obtain ⟨c, rfl⟩ := Option.isSome_iff_exists.mp hoke
          have hszrest : esizeL rest ≤ n := by
            simp only [esizeL, esize] at hsz
            omega
          by_cases hskip : _should_skip_path p = true
          · have hstep : fetchGo N (Entry.file p (some c) :: rest) acc
                = fetchGo N rest acc := by
              conv_lhs => unfold fetchGo
              simp [hlt, hskip]
            rw [hstep, ih rest acc hszrest hwrest hokrest hacc]
            simp [countEligibleL, countEligible, hskip]
          · have hstep : fetchGo N (Entry.file p (some c) :: rest) acc
                = fetchGo N rest (acc ++ [(p, c)]) := by
              conv_lhs => unfold fetchGo
              simp [hlt, hskip]
            have hacc' : (acc ++ [(p, c)]).length ≤ N := by
              simp only [List.length_append, List.length_cons, List.length_nil]
              omega
            rw [hstep, ih rest (acc ++ [(p, c)]) hszrest hwrest hokrest hacc']
            have hskip' : _should_skip_path p = false := by
              rw [Bool.eq_false_iff]
              exact hskip
            simp [countEligibleL, countEligible, hskip']
            omega
        | dir p ok cs =>
          simp only [wfEntry] at hwe
          simp only [noFailures, Bool.and_eq_true] at hoke
          obtain ⟨hok1, hokcs⟩ := hoke
          subst hok1
          by_cases hexc : firstSeg p ∈ EXCLUDED_DIRS
          · have hstep : fetchGo N (Entry.dir p true cs :: rest) acc
                = fetchGo N rest acc := by
              conv_lhs => unfold fetchGo
              simp [hlt, hexc]
            have hszrest : esizeL rest ≤ n := by
              simp only [esizeL, esize] at hsz
              omega
            have hzero : countEligibleL cs = 0 := by
              apply countEligibleL_zero
              intro c hc
              obtain ⟨hext, hwfc⟩ := wfChildren_mem p cs hwe c hc
              exact countEligible_zero_under (esize c) p c (le_refl _) hexc hwfc hext
            rw [hstep, ih rest acc hszrest hwrest hokrest hacc]
            simp only [countEligibleL, countEligible, hzero]
            omega
          · have hstep : fetchGo N (Entry.dir p true cs :: rest) acc
                = fetchGo N (rest ++ cs) acc := by
              conv_lhs => unfold fetchGo
              simp [hlt, hexc]
            have hszrest : esizeL (rest ++ cs) ≤ n := by
              rw [esizeL_append]
              simp only [esizeL, esize] at hsz
              omega
            have hwf' : wfForest (rest ++ cs) = true := by
              simp only [wfForest, List.all_append, Bool.and_eq_true]
              refine ⟨hwrest, List.all_eq_true.mpr ?_⟩
              intro c hc
              exact (wfChildren_mem p cs hwe c hc).2
            have hok' : noFailuresL (rest ++ cs) = true :=
              noFailuresL_append rest cs hokrest hokcs
            rw [hstep, ih (rest ++ cs) acc hszrest hwf' hok' hacc]
            rw [countEligibleL_append]
            simp only [countEligibleL, countEligible]
            omega
      · have hstep : fetchGo N (e :: rest) acc = acc := by
          conv_lhs => unfold fetchGo
          simp [hlt]
        rw [hstep]
        omega

/-- Unconditional bound: whatever listing or decode failures occur, the walk
never collects more than `max_files` files. -/
theorem fetchGo_le (N : Nat) :
    ∀ (n : Nat) (q : List Entry) (acc : List (Str × Str)),
      esizeL q ≤ n → acc.length ≤ N → (fetchGo N q acc).length ≤ N := by
  intro n
  induction n with
  | zero =>
    intro q acc hsz hacc
    have hq : q = [] := eq_nil_of_esizeL q (by omega)
    subst hq
    rw [fetchGo_nil]
    exact hacc
  | succ n ih =>
    intro q acc hsz hacc
    cases q with
    | nil =>
      rw [fetchGo_nil]
      exact hacc
    | cons e rest =>
      by_cases hlt : acc.length < N
      · cases e with
        | file p dc =>
          have hszrest : esizeL rest ≤ n := by
            simp only [esizeL, esize] at hsz
            omega
          by_cases hskip : _should_skip_path p = true
          · have hstep : fetchGo N (Entry.file p dc :: rest) acc = fetchGo N rest acc := by
              conv_lhs => unfold fetchGo
              simp [hlt, hskip]
            rw [hstep]
            exact ih rest acc hszrest hacc
          · cases dc with
            | some c =>
              have hstep : fetchGo N (Entry.file p (some c) :: rest) acc
                  = fetchGo N rest (acc ++ [(p, c)]) := by
                conv_lhs => unfold fetchGo
                simp [hlt, hskip]
              rw [hstep]
              refine ih rest (acc ++ [(p, c)]) hszrest ?_
              simp only [List.length_append, List.length_cons, List.length_nil]
              omega
            | none =>
              have hstep : fetchGo N (Entry.file p none :: rest) acc
                  = fetchGo N rest acc := by
                conv_lhs => unfold fetchGo
                simp [hlt, hskip]
              rw [hstep]
              exact ih rest acc hszrest hacc
        | dir p ok cs =>
          by_cases hexc : firstSeg p ∈ EXCLUDED_DIRS
          · have hstep : fetchGo N (Entry.dir p ok cs :: rest) acc = fetchGo N rest acc := by
              conv_lhs => unfold fetchGo
              simp [hlt, hexc]
            have hszrest : esizeL rest ≤ n := by
              simp only [esizeL, esize] at hsz
              omega
            rw [hstep]
            exact ih rest acc hszrest hacc
          · cases ok with
            | true =>
              have hstep : fetchGo N (Entry.dir p true cs :: rest) acc
                  = fetchGo N (rest ++ cs) acc := by
                conv_lhs => unfold fetchGo
                simp [hlt, hexc]
              have hszrest : esizeL (rest ++ cs) ≤ n := by
                rw [esizeL_append]
                simp only [esizeL, esize] at hsz
                omega
              rw [hstep]
              exact ih (rest ++ cs) acc hszrest hacc
            | false =>
              have hstep : fetchGo N (Entry.dir p false cs :: rest) acc
                  = fetchGo N rest acc := by
                conv_lhs => unfold fetchGo
                simp [hlt, hexc]
              have hszrest : esizeL rest ≤ n := by
                simp only [esizeL, esize] at hsz
                omega
              rw [hstep]
              exact ih rest acc hszrest hacc
      · have hstep : fetchGo N (e :: rest) acc = acc := by
          conv_lhs => unfold fetchGo
          simp [hlt]
        rw [hstep]
        omega

/-- Claim C4 counterexample: the absorbed failure branches break "empty
only when zero eligible files".  A repository whose single eligible file
fails to decode (`puller.py` lines 155-156), and one whose single eligible
file sits under a directory whose listing fails (lines 141-142), both
return the empty list with `max_files = 2 > 0` although one eligible file
exists, on well-formed trees. -/
theorem fetch_python_files_failure_empty :
    (fetch_python_files (("o").data) (("r").data)
        (RepoAccess.ok [Entry.file (("a.py").data) none]) 2 = Except.ok []
      ∧ countEligibleL [Entry.file (("a.py").data) none] = 1
      ∧ wfForest [Entry.file (("a.py").data) none] = true)
    ∧ (fetch_python_files (("o").data) (("r").data)
        (RepoAccess.ok [Entry.dir (("src").data) false
          [Entry.file (("src/a.py").data) (some (("x = 1").data))]]) 2 = Except.ok []
      ∧ countEligibleL [Entry.dir (("src").data) false
          [Entry.file (("src/a.py").data) (some (("x = 1").data))]] = 1
      ∧ wfForest [Entry.dir (("src").data) false
          [Entry.file (("src/a.py").data) (some (("x = 1").data))]] = true) := by
  have h1 : fetchGo 2 [Entry.file (("a.py").data) none] [] = [] := by
    conv_lhs => unfold fetchGo
    simp [show _should_skip_path (("a.py").data) = false from by decide, fetchGo_nil]
  have h2 : fetchGo 2 [Entry.dir (("src").data) false
      [Entry.file (("src/a.py").data) (some (("x = 1").data))]] [] = [] := by
    conv_lhs => unfold fetchGo
    simp [show firstSeg (("src").data) ∉ EXCLUDED_DIRS from by decide, fetchGo_nil]
  refine ⟨⟨?_, by decide, by decide⟩, ⟨?_, by decide, by decide⟩⟩
  · simp only [fetch_python_files]
    rw [h1]
  · simp only [fetch_python_files]
    rw [h2]

/-- Claim C4 (amended): over a well-formed repository tree with
`max_files = N > 0` the walk succeeds and returns at most `N`
`(path, content)` pairs, failures or not; and provided the run is
failure-free (no directory listing fails and every fetched file decodes),
it returns the empty list only when the repository contains zero eligible
files, and with exactly 5 eligible files `max_files = 2` yields exactly 2
entries.  The failure-free proviso is necessary: the absorbed listing- and
decode-failure branches can return the empty list despite eligible files
(see the counterexample). -/
theorem fetch_python_files_bounded (owner repo : Str) (root : List Entry) (N : Nat)
    (hN : 0 < N) (hwf : wfForest root = true) :
    ∃ files, fetch_python_files owner repo (RepoAccess.ok root) N = Except.ok files
      ∧ files.length ≤ N
      ∧ (noFailuresL root = true → files = [] → countEligibleL root = 0)
      ∧ (noFailuresL root = true → countEligibleL root = 5 →
          ∃ files2, fetch_python_files owner repo (RepoAccess.ok root) 2
              = Except.ok files2 ∧ files2.length = 2) := by
  refine ⟨fetchGo N root [], rfl, ?_, ?_, ?_⟩
  · exact fetchGo_le N (esizeL root) root [] (le_refl _) (by simp)
  · intro hok hempty
    have hlen := fetchGo_length N (esizeL root) root [] (le_refl _) hwf hok (by simp)
    simp only [List.length_nil, Nat.zero_add] at hlen
    have h0 : (fetchGo N root []).length = 0 := by rw [hempty]; rfl
    rw [hlen] at h0
    omega
  · intro hok h5
    refine ⟨fetchGo 2 root [], rfl, ?_⟩
    have hlen2 := fetchGo_length 2 (esizeL root) root [] (le_refl _) hwf hok (by simp)
    simp only [List.length_nil, Nat.zero_add] at hlen2
    rw [hlen2, h5]
    decide

/-- Witness for claim C4 at a concrete five-eligible-file repository with a
failure-free run. -/
theorem fetch_python_files_bounded_witness :
    0 < 3 ∧ wfForest repoEx = true
    ∧ (∃ files, fetch_python_files (("o").data) (("r").data) (RepoAccess.ok repoEx) 3
          = Except.ok files
        ∧ files.length ≤ 3
        ∧ (noFailuresL repoEx = true → files = [] → countEligibleL repoEx = 0)
        ∧ (noFailuresL repoEx = true → countEligibleL repoEx = 5 →
            ∃ files2, fetch_python_files (("o").data) (("r").data) (RepoAccess.ok repoEx) 2
                = Except.ok files2 ∧ files2.length = 2)) :=
  ⟨by decide, by decide,
   fetch_python_files_bounded (("o").data) (("r").data) repoEx 3 (by decide) (by decide)⟩

/-! Lemmas about syntax-tree sizes and the breadth-first walk. -/

theorem psizeL_append (l₁ l₂ : List PyNode) :
    psizeL (l₁ ++ l₂) = psizeL l₁ + psizeL l₂ := by
  induction l₁ with
  | nil => simp [psizeL]
  | cons a l ih => simp [psizeL, ih, Nat.add_assoc]

theorem psize_pos : ∀ n : PyNode, 0 < psize n
  | .funcDef _ _ _ _ => by simp [psize]
  | .classDef _ _ _ _ => by simp [psize]
  | .other _ => by simp [psize]

theorem eq_nil_of_psizeL (q : List PyNode) (h : psizeL q = 0) : q = [] := by
  cases q with
  | nil => rfl
  | cons n ns =>
    exfalso
    have := psize_pos n
    simp only [psizeL] at h
    omega

theorem defFreeL_append (l₁ l₂ : List PyNode)
    (h₁ : defFreeL l₁ = true) (h₂ : defFreeL l₂ = true) :
    defFreeL (l₁ ++ l₂) = true := by
  induction l₁ with
  | nil => simpa using h₂
  | cons a l ih =>
    simp only [List.cons_append, defFreeL, Bool.and_eq_true] at h₁ ⊢
    exact ⟨h₁.1, ih h₁.2⟩

/-- A queue of definition-free subtrees contributes no chunks. -/
theorem chunks_nil_of_defFree (lines : List Str) (fp rid : Str) :
    ∀ (n : Nat) (q : List PyNode), psizeL q ≤ n → defFreeL q = true →
      (walkBFS q).filterMap (nodeChunk lines fp rid) = [] := by
  intro n
  induction n with
  | zero =>
    intro q hsz _
    have hq : q = [] := eq_nil_of_psizeL q (by omega)
    subst hq
    simp [walkBFS]
  | succ n ih =>
    intro q hsz hdf
    cases q with
    | nil => simp [walkBFS]
    | cons m rest =>
      simp only [defFreeL, Bool.and_eq_true] at hdf
      obtain ⟨hdm, hdrest⟩ := hdf
      cases m with
      | funcDef a b c d => simp [defFree] at hdm
      | classDef a b c d => simp [defFree] at hdm
      | other cs =>
        simp only [defFree] at hdm
        have hsz' : psizeL (rest ++ cs) ≤ n := by
          rw [psizeL_append]
          simp only [psizeL, psize] at hsz
          omega
        have hrec := ih (rest ++ cs) hsz' (defFreeL_append rest cs hdrest hdm)
        simp [walkBFS, pyChildren, List.filterMap_cons, nodeChunk, hrec]

theorem joinNL_cons_ne_nil (s : Str) (rest : List Str) (hs : s ≠ []) :
    joinNL (s :: rest) ≠ [] := by
  cases rest with
  | nil => simpa [joinNL] using hs
  | cons t ts =>
    simp only [joinNL]
    simp

theorem get?_drop_cons {α : Type} : ∀ (l : List α) (a : Nat) (s : α),
    l.get? a = some s → l.drop a = s :: l.drop (a + 1)
  | [], a, s, h => by simp at h
  | x :: xs, 0, s, h => by
    simp only [List.get?] at h
    cases h
    rfl
  | x :: xs, a + 1, s, h => by
    simp only [List.get?] at h
    have := get?_drop_cons xs a s h
    simpa [List.drop_succ_cons] using this

/-- A line slice whose first line exists and is nonempty joins to a nonempty
chunk text. -/
theorem slice_ne_nil (lines : List Str) (a b : Nat) (hab : a < b)
    (s : Str) (hget : lines.get? a = some s) (hne : s ≠ []) :
    joinNL ((lines.drop a).take (b - a)) ≠ [] := by
  rw [get?_drop_cons lines a s hget]
  have hb : b - a = (b - a - 1) + 1 := by omega
  rw [hb, List.take_succ_cons]
  exact joinNL_cons_ne_nil s _ hne

theorem mkChunk_eq_some (lines : List Str) (fp rid ty name : Str)
    (lineno : Nat) (endL : Option Nat) (hname : name ≠ [])
    (htext : joinNL ((lines.drop (sliceStart lineno)).take
      (sliceEnd lineno endL - sliceStart lineno)) ≠ []) :
    ∃ ch, mkChunk lines fp rid ty name lineno endL = some ch := by
  unfold mkChunk
  rw [if_pos ⟨htext, hname⟩]
  exact ⟨_, rfl⟩

/-- Claim C7: content that fails to parse (`ast.parse` raises a
`SyntaxError`) yields the empty chunk list, and nothing propagates to the
caller: the error is caught and an ordinary list is returned. -/
theorem parse_python_file_syntax_error (err content file_path repo_id : Str) :
    parse_python_file (.error err) content file_path repo_id = [] := rfl

/-- Claim C6: a file parsing to exactly one class containing exactly one
function produces exactly two chunks, and the inner (function) chunk's
sliced line range is a strict subset of the outer (class) chunk's sliced
line range.  The ordering hypotheses `1 ≤ l1 < l2 ≤ e2 ≤ e1` and the
existence and nonemptiness of the two definition lines are guarantees of
the CPython parser for a file of this shape. -/
theorem parse_python_file_nested_two_chunks
    (content file_path repo_id cn fn : Str) (l1 e1 l2 e2 : Nat)
    (fbody : List PyNode)
    (hcn : cn ≠ []) (hfn : fn ≠ []) (hfree : defFreeL fbody = true)
    (h1 : 1 ≤ l1) (h12 : l1 < l2) (h2 : l2 ≤ e2) (h21 : e2 ≤ e1)
    (hs1 : ∃ s, (splitLines content).get? (l1 - 1) = some s ∧ s ≠ [])
    (hs2 : ∃ s, (splitLines content).get? (l2 - 1) = some s ∧ s ≠ []) :
    (parse_python_file
        (.ok [PyNode.classDef cn l1 (some e1)
          [PyNode.funcDef fn l2 (some e2) fbody]])
        content file_path repo_id).length = 2
    ∧ Finset.Ico (sliceStart l2) (sliceEnd l2 (some e2))
        ⊂ Finset.Ico (sliceStart l1) (sliceEnd l1 (some e1)) := by
  obtain ⟨s1, hget1, hne1⟩ := hs1
  obtain ⟨s2, hget2, hne2⟩ := hs2
  have hend1 : sliceEnd l1 (some e1) = e1 := by
    have he1 : e1 ≠ 0 := by omega
    simp [sliceEnd, pyOrNat, he1]
  have hend2 : sliceEnd l2 (some e2) = e2 := by
    have he2 : e2 ≠ 0 := by omega
    simp [sliceEnd, pyOrNat, he2]
  have hstart1 : sliceStart l1 = l1 - 1 := rfl
  have hstart2 : sliceStart l2 = l2 - 1 := rfl
  constructor
  · have htext1 : joinNL (((splitLines content).drop (sliceStart l1)).take
        (sliceEnd l1 (some e1) - sliceStart l1)) ≠ [] := by
      rw [hend1, hstart1]
      exact slice_ne_nil _ _ _ (by omega) s1 hget1 hne1
    have htext2 : joinNL (((splitLines content).drop (sliceStart l2)).take
        (sliceEnd l2 (some e2) - sliceStart l2)) ≠ [] := by
      rw [hend2, hstart2]
      exact slice_ne_nil _ _ _ (by omega) s2 hget2 hne2
    obtain ⟨ch1, hch1⟩ := mkChunk_eq_some (splitLines content) file_path repo_id
      (("class").data) cn l1 (some e1) hcn htext1
    obtain ⟨ch2, hch2⟩ := mkChunk_eq_some (splitLines content) file_path repo_id
      (("function").data) fn l2 (some e2) hfn htext2
    have hrest := chunks_nil_of_defFree (splitLines content) file_path repo_id
      (psizeL fbody) fbody (le_refl _) hfree
    simp only [parse_python_file, walkBFS, pyChildren, List.cons_append,
      List.nil_append, List.filterMap_cons, nodeChunk, hch1, hch2, hrest]
    rfl
  · rw [hend1, hend2, hstart1, hstart2]
    have hsub : Finset.Ico (l2 - 1) e2 ⊆ Finset.Ico (l1 - 1) e1 :=
      Finset.Ico_subset_Ico (by omega) (by omega)
    rw [Finset.ssubset_iff_of_subset hsub]
    refine ⟨l1 - 1, Finset.mem_Ico.mpr ⟨by omega, by omega⟩, ?_⟩
    intro hmem
    have := Finset.mem_Ico.mp hmem
    omega

/-- Witness for claim C6: `class C:` on line 1 with `def f(self):` on line 2
and `pass` on line 3. -/
theorem parse_python_file_nested_two_chunks_witness :
    (("C").data ≠ ([] : Str)) ∧ (("f").data ≠ ([] : Str))
    ∧ defFreeL [PyNode.other []] = true
    ∧ 1 ≤ 1 ∧ 1 < 2 ∧ 2 ≤ 3 ∧ 3 ≤ 3
    ∧ (∃ s, (splitLines (("class C:\n    def f(self):\n        pass").data)).get?
        (1 - 1) = some s ∧ s ≠ [])
    ∧ (∃ s, (splitLines (("class C:\n    def f(self):\n        pass").data)).get?
        (2 - 1) = some s ∧ s ≠ [])
    ∧ ((parse_python_file
          (.ok [PyNode.classDef (("C").data) 1 (some 3)
            [PyNode.funcDef (("f").data) 2 (some 3) [PyNode.other []]]])
          (("class C:\n    def f(self):\n        pass").data)
          (("t.py").data) (("r").data)).length = 2
      ∧ Finset.Ico (sliceStart 2) (sliceEnd 2 (some 3))
          ⊂ Finset.Ico (sliceStart 1) (sliceEnd 1 (some 3))) :=
  ⟨by decide, by decide, by decide, by decide, by decide, by decide, by decide,
   ⟨("class C:").data, by decide, by decide⟩,
   ⟨("    def f(self):").data, by decide, by decide⟩,
   parse_python_file_nested_two_chunks
     (("class C:\n    def f(self):\n        pass").data)
     (("t.py").data) (("r").data) (("C").data) (("f").data) 1 3 2 3
     [PyNode.other []]
     (by decide) (by decide) (by decide) (by decide) (by decide) (by decide)
     (by decide)
     ⟨("class C:").data, by decide, by decide⟩
     ⟨("    def f(self):").data, by decide, by decide⟩⟩

/-! Lemmas about the depth-annotated walk (claim C5). -/

theorem map_fst_pair {α β : Type} (l : List α) (k : β) :
    List.map (Prod.fst ∘ fun c => (c, k)) l = l := by
  induction l with
  | nil => rfl
  | cons a t ih => simp [ih, Function.comp]

theorem pairwise_const_depth (l : List PyNode) (k : Nat) :
    List.Pairwise (fun a b : PyNode × Nat => a.2 ≤ b.2) (l.map (fun nd => (nd, k))) := by
  induction l with
  | nil => simp
  | cons a t ih =>
    simp only [List.map_cons, List.pairwise_cons]
    refine ⟨?_, ih⟩
    intro b hb
    obtain ⟨x, _, hx⟩ := List.mem_map.mp hb
    rw [← hx]

theorem walkBFSD_queue_size (m : PyNode) (d : Nat) (rest : List (PyNode × Nat)) :
    psizeL ((rest ++ (pyChildren m).map (fun c => (c, d + 1))).map Prod.fst)
      + 1 = psizeL (((m, d) :: rest).map Prod.fst) := by
  simp only [List.map_append, List.map_map, List.map_cons, map_fst_pair]
  rw [psizeL_append]
  cases m <;> simp [psize, psizeL, pyChildren] <;> omega

/-- The annotated walk projects onto `ast.walk`'s queue traversal. -/
theorem walkBFSD_fst :
    ∀ (n : Nat) (q : List (PyNode × Nat)), psizeL (q.map Prod.fst) ≤ n →
      (walkBFSD q).map Prod.fst = walkBFS (q.map Prod.fst) := by
  intro n
  induction n with
  | zero =>
    intro q hsz
    cases q with
    | nil => simp [walkBFSD, walkBFS]
    | cons a t =>
      exfalso
      obtain ⟨m, d⟩ := a
      have := walkBFSD_queue_size m d t
      omega
  | succ n ih =>
    intro q hsz
    cases q with
    | nil => simp [walkBFSD, walkBFS]
    | cons hd rest =>
      obtain ⟨m, d⟩ := hd
      have hsz' : psizeL ((rest ++ (pyChildren m).map (fun c => (c, d + 1))).map
          Prod.fst) ≤ n := by
        have := walkBFSD_queue_size m d rest
        omega
      have hrw := ih (rest ++ (pyChildren m).map (fun c => (c, d + 1))) hsz'
      simp only [walkBFSD, List.map_cons, hrw, List.map_append, List.map_map,
        map_fst_pair, walkBFS]

/-- Every node emitted by the annotated walk is at least as deep as a lower
bound on the whole queue. -/
theorem walkBFSD_lb :
    ∀ (n : Nat) (q : List (PyNode × Nat)) (c : Nat),
      psizeL (q.map Prod.fst) ≤ n → (∀ p ∈ q, c ≤ p.2) →
      ∀ p ∈ walkBFSD q, c ≤ p.2 := by
  intro n
  induction n with
  | zero =>
    intro q c hsz hq p hp
    cases q with
    | nil => simp [walkBFSD] at hp
    | cons a t =>
      exfalso
      obtain ⟨m, d⟩ := a
      have := walkBFSD_queue_size m d t
      omega
  | succ n ih =>
    intro q c hsz hq p hp
    cases q with
    | nil => simp [walkBFSD] at hp
    | cons hd rest =>
      obtain ⟨m, d⟩ := hd
      simp only [walkBFSD, List.mem_cons] at hp
      rcases hp with hp | hp
      · subst hp
        exact hq (m, d) (by simp)
      · have hsz' : psizeL ((rest ++ (pyChildren m).map (fun c => (c, d + 1))).map
            Prod.fst) ≤ n := by
          have := walkBFSD_queue_size m d rest
          omega
        refine ih _ c hsz' ?_ p hp
        intro x hx
        rcases List.mem_append.mp hx with hx | hx
        · exact hq x (by simp [hx])
        · obtain ⟨y, _, hy⟩ := List.mem_map.mp hx
          have hcd : c ≤ d := hq (m, d) (by simp)
          rw [← hy]
          simp
          omega

/-- Under the breadth-first-search queue invariant (depths nondecreasing,
spread at most one), the annotated walk emits nodes in nondecreasing
depth order. -/
theorem walkBFSD_sorted :
    ∀ (n : Nat) (q : List (PyNode × Nat)),
      psizeL (q.map Prod.fst) ≤ n →
      List.Pairwise (fun a b : PyNode × Nat => a.2 ≤ b.2) q →
      (∀ a ∈ q, ∀ b ∈ q, a.2 ≤ b.2 + 1) →
      List.Pairwise (fun a b : PyNode × Nat => a.2 ≤ b.2) (walkBFSD q) := by
  intro n
  induction n with
  | zero =>
    intro q hsz _ _
    cases q with
    | nil => simp [walkBFSD]
    | cons a t =>
      exfalso
      obtain ⟨m, d⟩ := a
      have := walkBFSD_queue_size m d t
      omega
  | succ n ih =>
    intro q hsz hpw hspread
    cases q with
    | nil => simp [walkBFSD]
    | cons hd rest =>
      obtain ⟨m, d⟩ := hd
      simp only [List.pairwise_cons] at hpw
      obtain ⟨hhead, hrest⟩ := hpw
      have hsz' : psizeL ((rest ++ (pyChildren m).map (fun c => (c, d + 1))).map
          Prod.fst) ≤ n := by
        have := walkBFSD_queue_size m d rest
        omega
      have hlbq : ∀ x ∈ rest ++ (pyChildren m).map (fun c => (c, d + 1)), d ≤ x.2 := by
        intro x hx
        rcases List.mem_append.mp hx with hx | hx
        · exact hhead x hx
        · obtain ⟨y, _, hy⟩ := List.mem_map.mp hx
          rw [← hy]
          simp
      have hpw' : List.Pairwise (fun a b : PyNode × Nat => a.2 ≤ b.2)
          (rest ++ (pyChildren m).map (fun c => (c, d + 1))) := by
        rw [List.pairwise_append]
        refine ⟨hrest, pairwise_const_depth _ _, ?_⟩
        intro a ha b hb
        obtain ⟨y, _, hy⟩ := List.mem_map.mp hb
        have := hspread a (by simp [ha]) (m, d) (by simp)
        rw [← hy]
        simpa using this
      have hspread' : ∀ a ∈ rest ++ (pyChildren m).map (fun c => (c, d + 1)),
          ∀ b ∈ rest ++ (pyChildren m).map (fun c => (c, d + 1)), a.2 ≤ b.2 + 1 := by
        intro a ha b hb
        rcases List.mem_append.mp ha with ha | ha <;>
          rcases List.mem_append.mp hb with hb | hb
        · exact hspread a (by simp [ha]) b (by simp [hb])
        · obtain ⟨y, _, hy⟩ := List.mem_map.mp hb
          have := hspread a (by simp [ha]) (m, d) (by simp)
          rw [← hy]
          simp
          omega
        · obtain ⟨y, _, hy⟩ := List.mem_map.mp ha
          have := hhead b hb
          rw [← hy]
          simp
          omega
        · obtain ⟨y, _, hy⟩ := List.mem_map.mp ha
          obtain ⟨z, _, hz⟩ := List.mem_map.mp hb
          rw [← hy, ← hz]
          simp
  
      simp only [walkBFSD, List.pairwise_cons]
      refine ⟨?_, ih _ hsz' hpw' hspread'⟩
      intro b hb
      exact walkBFSD_lb n _ d hsz' hlbq b hb

/-- Claim C5 counterexample: `ast.walk` is breadth-first, not pre-order.
For a file with top-level functions `a` (containing nested `g`) and `b`, the
chunk list is `a, b, g`: the nested definition's chunk comes after the later
sibling's chunk instead of immediately after its parent's. -/
theorem parse_python_file_not_preorder :
    (parse_python_file (.ok cexTree) cexContent (("f.py").data) (("r").data)).map
        Chunk.id
      = [("r:f.py:a").data, ("r:f.py:b").data, ("r:f.py:g").data]
    ∧ ¬ ((parse_python_file (.ok cexTree) cexContent (("f.py").data)
          (("r").data)).map Chunk.id
      = [("r:f.py:a").data, ("r:f.py:g").data, ("r:f.py:b").data]) := by
  simp only [parse_python_file, cexTree, walkBFS, pyChildren, List.cons_append,
    List.nil_append]
  decide

/-- Claim C5 (amended): the chunk list of `parse_python_file` follows the
breadth-first order of `ast.walk`: it equals the chunk extraction over the
depth-annotated queue traversal started at depth 1, and the depths of the
chunk-emitting nodes are nondecreasing along the list — so every function or
class definition's chunk appears before the chunks of all definitions nested
strictly inside it, but not necessarily before a later sibling's chunk
(pre-order does not hold, see the counterexample). -/
theorem parse_python_file_bfs_order (tree : List PyNode)
    (content file_path repo_id : Str) :
    parse_python_file (.ok tree) content file_path repo_id
      = (walkBFSD (tree.map (fun nd => (nd, 1)))).filterMap
          (fun p => nodeChunk (splitLines content) file_path repo_id p.1)
    ∧ List.Pairwise (fun a b : PyNode × Nat => a.2 ≤ b.2)
        ((walkBFSD (tree.map (fun nd => (nd, 1)))).filter
          (fun p => (nodeChunk (splitLines content) file_path repo_id p.1).isSome)) := by
  constructor
  · have hfst := walkBFSD_fst (psizeL ((tree.map (fun nd => (nd, 1))).map Prod.fst))
      (tree.map (fun nd => (nd, 1))) (le_refl _)
    have htree : (tree.map (fun nd => (nd, 1))).map Prod.fst = tree := by
      rw [List.map_map, map_fst_pair]
    rw [htree] at hfst
    simp only [parse_python_file, ← hfst, List.filterMap_map, Function.comp]
    rfl
  · have hsorted := walkBFSD_sorted (psizeL ((tree.map (fun nd => (nd, 1))).map Prod.fst))
      (tree.map (fun nd => (nd, 1))) (le_refl _) (pairwise_const_depth tree 1) ?_
    · exact List.Pairwise.sublist (List.filter_sublist _) hsorted
    · intro a ha b hb
      obtain ⟨x, _, hx⟩ := List.mem_map.mp ha
      obtain ⟨y, _, hy⟩ := List.mem_map.mp hb
      rw [← hx, ← hy]
      simp

/-- Claim C8: for every environment, identifier, model selector and
`skip_if_exists` value, `create_moss_index` applied to an empty chunk list
fails with the empty-chunk-set `ValueError`, and its interaction trace is
empty: no listing call, no creation call, and no client construction
happens. -/
theorem create_moss_index_empty_chunks (env : MossEnv)
    (index_name embedding_model : Str) (skip_if_exists : Bool) :
    create_moss_index env [] index_name embedding_model skip_if_exists
      = (Except.error (("Cannot create index from empty chunks list").data), []) := rfl

/-- Claim C9: when the query response holds more than `top_k` documents,
`search_code` returns exactly `top_k` results, aligned index-for-index with
the response prefix (the service's original order, no local re-ranking), and
the formatting fills an absent `id` with `"unknown"` and an absent `score`
with `0.0`. -/
theorem search_code_truncates_and_fills (index_identifier : Str)
    (docs : List RawDoc) (top_k : Nat) (h : top_k < docs.length) :
    (search_code index_identifier (some docs) top_k).length = top_k
    ∧ (∀ i, i < top_k →
        (search_code index_identifier (some docs) top_k).get? i
          = (docs.get? i).map formatDoc)
    ∧ (∀ d : RawDoc, d.id = none → (formatDoc d).id = ("unknown").data)
    ∧ (∀ d : RawDoc, d.score = none → (formatDoc d).score = 0) := by
  refine ⟨?_, ?_, ?_, ?_⟩
  · simp only [search_code, List.length_map, List.length_take]
    omega
  · intro i hi
    simp only [search_code]
    rw [List.get?_map, List.get?_take hi]
  · intro d hd
    simp [formatDoc, hd]
  · intro d hd
    simp [formatDoc, hd]

/-- Witness for claim C9: a two-document response truncated to one result,
whose only document omits every field. -/
theorem search_code_truncates_and_fills_witness :
    1 < 2
    ∧ ((search_code (("r-x").data)
          (some [RawDoc.mk none none none,
                 RawDoc.mk (some (("d2").data)) (some (("t2").data)) (some 1)]) 1).length = 1
      ∧ (∀ i, i < 1 →
          (search_code (("r-x").data)
            (some [RawDoc.mk none none none,
                   RawDoc.mk (some (("d2").data)) (some (("t2").data)) (some 1)]) 1).get? i
            = (([RawDoc.mk none none none,
                 RawDoc.mk (some (("d2").data)) (some (("t2").data)) (some 1)] :
                  List RawDoc).get? i).map formatDoc)
      ∧ (∀ d : RawDoc, d.id = none → (formatDoc d).id = ("unknown").data)
      ∧ (∀ d : RawDoc, d.score = none → (formatDoc d).score = 0)) :=
  ⟨by decide,
   search_code_truncates_and_fills (("r-x").data)
     [RawDoc.mk none none none,
      RawDoc.mk (some (("d2").data)) (some (("t2").data)) (some 1)] 1 (by decide)⟩
